import Mathlib

/-
Verification of the transform-application engine of dicom2hdf
(src/dicom2hdf/transforms/applications.py).

The engine applies an ordered pipeline of transforms to a patient record.
Each transform is routed either to the physical-space path (SimpleITK images,
a Dicom2hdfTransform with a mutable mode flag) or to the array-space path
(a monai MapTransform on plain numeric arrays, with spatial metadata captured
before and restored after the call).

Conventions of the shallow embedding:
- Python dictionaries are association lists `List (String × α)` with Python
  dict semantics: insertion order is kept, re-assigning an existing key
  replaces the value in place, `pop` of a missing key fails.
- Exceptions are modelled with `Option`: `none` is a raised exception.
- The mutable `mode` attribute of a physical-space transform is modelled by
  explicit state passing: the applicators return the updated transform value
  together with the (possibly failing) data result.
- SimpleITK images are records of voxel content plus the spacing, origin and
  direction metadata; metadata components are integers (element-wise equality
  is all the spec talks about).  The voxel content carries a `channeled` flag
  recording whether a leading channel axis has been inserted, which is the
  observable effect of monai's EnsureChannelFirstD step.
-/

namespace Dicom2hdf

/-- Plain numeric array: voxel data plus whether a leading channel axis is
present (the array-space representation has no spatial metadata). -/
structure NArray where
  channeled : Bool
  data : List Int
deriving DecidableEq

/-- Physical-space volumetric object: voxel content plus spacing, origin and
direction spatial metadata (the SimpleITK image of the source). -/
structure SitkImage where
  content : NArray
  spacing : List Int
  origin : List Int
  direction : List Int
deriving DecidableEq

/-- Modelled from the spec: the execution-mode flag of the physical-space
transform family (dicom2hdf.transforms.transforms.Mode, not under src/):
one of IMAGE, SEGMENTATION or the neutral NONE state. -/
inductive Mode where
  | NONE
  | IMAGE
  | SEGMENTATION
deriving DecidableEq

/-- Keyed collection of physical-space objects (a Python dict). -/
abbrev KC := List (String × SitkImage)

/-- Keyed collection of plain numeric arrays (a Python dict). -/
abbrev AC := List (String × NArray)

/-- Lookup in an association list: the first entry with the given key
(Python dict indexing; `none` is a KeyError). -/
def lookupKV {α : Type} : List (String × α) → String → Option α
  | [], _ => none
  | (k, v) :: rest, key => if k = key then some v else lookupKV rest key

/-- Membership test for a key (Python `key in dict`). -/
def containsKey {α : Type} (d : List (String × α)) (key : String) : Bool :=
  (lookupKV d key).isSome

/-- Assignment `d[key] = v` with Python dict semantics: an existing key keeps
its position and gets the new value, a new key is appended. -/
def insertKV {α : Type} : List (String × α) → String → α → List (String × α)
  | [], key, v => [(key, v)]
  | (k, w) :: rest, key, v =>
      if k = key then (k, v) :: rest else (k, w) :: insertKV rest key v

/-- Python `dict.pop(key)` without default: removes the entry and returns the
remaining dict, or fails (KeyError) when the key is absent. -/
def popKV {α : Type} : List (String × α) → String → Option (List (String × α))
  | [], _ => none
  | (k, w) :: rest, key =>
      if k = key then some rest else (popKV rest key).map ((k, w) :: ·)

/-- Pops every key of the list in order, failing as soon as one is absent
(the `for img_key in images.keys(): transformed_dict.pop(img_key)` loop). -/
def popAll {α : Type} : List (String × α) → List String → Option (List (String × α))
  | d, [] => some d
  | d, k :: ks => (popKV d k).bind (fun d' => popAll d' ks)

/-- Key sequence of a dict, in insertion order. -/
def keysOf {α : Type} (d : List (String × α)) : List String :=
  d.map Prod.fst

/-- Uniqueness of keys, the invariant of every genuine Python dict. -/
def NodupKeys {α : Type} (d : List (String × α)) : Prop :=
  (keysOf d).Nodup

instance nodupKeysDecidable {α : Type} (d : List (String × α)) : Decidable (NodupKeys d) :=
  inferInstanceAs (Decidable (keysOf d).Nodup)

/-- Dict built from a sequence of key-value pairs (a dict comprehension):
later pairs with an already-seen key overwrite the value in place. -/
def dictOfPairs {α : Type} (l : List (String × α)) : List (String × α) :=
  l.foldl (fun d kv => insertKV d kv.1 kv.2) []

/-- Option-valued map over a list, failing as soon as one element fails
(a Python loop whose body may raise). -/
def omapM {α β : Type} (f : α → Option β) : List α → Option (List β)
  | [] => some []
  | a :: rest => (f a).bind (fun b => (omapM f rest).map (b :: ·))

/-- Modelled from the spec: physical-space transform contract
(dicom2hdf.transforms.transforms.Dicom2hdfTransform, not under src/): a
mutable mode attribute plus a callable on keyed collections of physical-space
objects.  The callable receives the current value of the mode flag; `none`
models a raised exception. -/
structure Dicom2hdfTransform where
  mode : Mode
  call : Mode → KC → Option KC

/-- Array-space transform contract (monai MapTransform, collaborator
specified at its interface boundary): a set of keys of interest plus a
callable on keyed collections of plain arrays; `none` models a raised
exception. -/
structure MonaiMapTransform where
  keys : List String
  call : AC → Option AC

/-- A pipeline element: a physical-space transform, an array-space transform,
or a value of neither recognized family (the fall-through case of the
isinstance dispatch in the source). -/
inductive Transform where
  | d2h : Dicom2hdfTransform → Transform
  | monai : MonaiMapTransform → Transform
  | other : Transform

/-- Modelled from the spec: one image entry of the patient record
(dicom2hdf.data_model, not under src/): series identity, the key assigned by
the Key Assigner, and the physical-space image. -/
structure ImageData where
  series_description : Option String
  modality : String
  transforms_key : String
  simple_itk_image : SitkImage
deriving DecidableEq

/-- Modelled from the spec: one segmentation group
(dicom2hdf.data_model, not under src/): a mapping from organ name to
physical-space label map. -/
structure SegmentationData where
  simple_itk_label_maps : KC
deriving DecidableEq

/-- Modelled from the spec: one image together with its segmentation groups
(dicom2hdf.data_model, not under src/). -/
structure ImageAndSegmentationData where
  image : ImageData
  segmentations : List SegmentationData
deriving DecidableEq

/-- Modelled from the spec: the patient record
(dicom2hdf.data_model.PatientDataModel, not under src/): an ordered sequence
of image-and-segmentation entries, mutated in place by the orchestrator. -/
structure PatientDataModel where
  data : List ImageAndSegmentationData
deriving DecidableEq

/-- Metadata triple captured per key in the array-space path
(class _SitkImageInfo of the source). -/
structure SitkImageInfo where
  spacing : List Int
  origin : List Int
  direction : List Int
deriving DecidableEq

/-- SimpleITK collaborator: sitk.GetArrayFromImage drops the spatial metadata
and yields the plain voxel array. -/
def GetArrayFromImage (img : SitkImage) : NArray :=
  img.content

/-- SimpleITK collaborator: sitk.GetImageFromArray wraps a plain array into a
physical-space object with default metadata (overwritten by the subsequent
SetSpacing / SetOrigin / SetDirection calls of the source). -/
def GetImageFromArray (a : NArray) : SitkImage :=
  { content := a
    spacing := [1, 1, 1]
    origin := [0, 0, 0]
    direction := [1, 0, 0, 0, 1, 0, 0, 0, 1] }

/-- Modelled from the spec: convert_to_numpy (dicom2hdf.transforms.tools,
not under src/) converts any returned non-plain-array result back to a plain
array; on the plain arrays of this embedding it is the identity. -/
def convert_to_numpy (a : NArray) : NArray :=
  a

/-- Monai collaborator: EnsureChannelFirst inserts a leading channel axis
when it is absent. -/
def EnsureChannelFirst (a : NArray) : NArray :=
  if a.channeled then a else { channeled := true, data := a.data }

/-- Monai collaborator: EnsureChannelFirstD applies EnsureChannelFirst to
every entry whose key is a key of interest, skipping the other entries and
missing keys (allow_missing_keys=True in the source). -/
def EnsureChannelFirstD (keys : List String) (d : AC) : AC :=
  d.map (fun kv => if keys.contains kv.1 then (kv.1, EnsureChannelFirst kv.2) else kv)

/-- Python deepcopy of a keyed collection: in the value semantics of this
embedding it yields the same value (an independent copy). -/
def deepcopy (d : KC) : KC :=
  d

/-- Captured metadata of every entry of a keyed collection
(the `info` dict of _apply_monai_transforms). -/
def infoOf (data : KC) : List (String × SitkImageInfo) :=
  data.map (fun kv => (kv.1, SitkImageInfo.mk kv.2.spacing kv.2.origin kv.2.direction))

/-- Plain arrays of every entry of a keyed collection
(the `temp_dict` of _apply_monai_transforms). -/
def arraysOf (data : KC) : AC :=
  data.map (fun kv => (kv.1, GetArrayFromImage kv.2))

/-- Rebuilds a physical-space object from a transformed array and the
captured pre-transform metadata (GetImageFromArray followed by SetSpacing,
SetOrigin and SetDirection in the source). -/
def restoreImage (info : SitkImageInfo) (arr : NArray) : SitkImage :=
  { GetImageFromArray (convert_to_numpy arr) with
      spacing := info.spacing
      origin := info.origin
      direction := info.direction }

/-- Array-space execution path (_apply_monai_transforms of the source):
capture metadata, convert to arrays, run EnsureChannelFirstD composed with
the transform, convert results back and reattach each key's captured
metadata; a key of the result missing from the captured metadata is a
KeyError. -/
def _apply_monai_transforms (data : KC) (transform : MonaiMapTransform) : Option KC :=
  match transform.call (EnsureChannelFirstD transform.keys (arraysOf data)) with
  | none => none
  | some transformed_data =>
      omapM (fun kv =>
        (lookupKV (infoOf data) kv.1).map (fun i => (kv.1, restoreImage i kv.2)))
        transformed_data

/-- Physical-space execution path (_apply_dicom2hdf_transform of the source):
set the transform's mode flag to the given mode, invoke the transform (the
callable therefore reads the just-set flag, passed here as its argument), and
on success reset the flag to NONE; on an exception the flag keeps the
invocation mode and the exception propagates. -/
def _apply_dicom2hdf_transform (data : KC) (transform : Dicom2hdfTransform) (mode : Mode) :
    Dicom2hdfTransform × Option KC :=
  match transform.call mode data with
  | none => ({ transform with mode := mode }, none)
  | some transformed_data => ({ transform with mode := Mode.NONE }, some transformed_data)

/-- Single-transform applicator (_apply_transform of the source): dispatch on
the transform family; a value of neither family falls through and the Python
function returns None without raising (modelled as `some none`: no exception,
no dictionary). -/
def _apply_transform (data : KC) (transform : Transform) (mode : Mode) :
    Transform × Option (Option KC) :=
  match transform with
  | Transform.d2h t =>
      (Transform.d2h (_apply_dicom2hdf_transform data t mode).1,
        ((_apply_dicom2hdf_transform data t mode).2).map some)
  | Transform.monai t =>
      (Transform.monai t, (_apply_monai_transforms data t).map some)
  | Transform.other => (Transform.other, some none)

/-- Image keyed collection built from the current state of all pairs
(the dict comprehension of the source). -/
def imagesDictOf (pd : PatientDataModel) : KC :=
  dictOfPairs (pd.data.map (fun e => (e.image.transforms_key, e.image.simple_itk_image)))

/-- Write-back of one pair in the image application: look the pair's key up
in the transform output (a KeyError when absent) and store the result as the
pair's image. -/
def writeBackImage (d : KC) (e : ImageAndSegmentationData) : Option ImageAndSegmentationData :=
  (lookupKV d e.image.transforms_key).map (fun img =>
    { e with image := { e.image with simple_itk_image := img } })

/-- Image application of one transform step (_apply_transform_on_images of
the source). -/
def _apply_transform_on_images (pd : PatientDataModel) (transform : Transform) :
    Transform × Option PatientDataModel :=
  ((_apply_transform (imagesDictOf pd) transform Mode.IMAGE).1,
    match (_apply_transform (imagesDictOf pd) transform Mode.IMAGE).2 with
    | some (some d) => (omapM (writeBackImage d) pd.data).map PatientDataModel.mk
    | _ => none)

/-- Overlay of a segmentation group's organ-keyed label maps onto a copy of
the base image collection (the `temp_dict[organ_name] = label_map` loop). -/
def overlayLabels (base : KC) (labels : KC) : KC :=
  labels.foldl (fun d kv => insertKV d kv.1 kv.2) base

/-- Segmentation application for one group: overlay the group onto a deep
copy of the base images, apply the transform in SEGMENTATION mode, then pop
every image key from the result, the surviving entries becoming the group's
new label maps. -/
def segGroupStep (images : KC) (t : Transform) (sd : SegmentationData) :
    Transform × Option SegmentationData :=
  ((_apply_transform (overlayLabels (deepcopy images) sd.simple_itk_label_maps) t
      Mode.SEGMENTATION).1,
    match (_apply_transform (overlayLabels (deepcopy images) sd.simple_itk_label_maps) t
        Mode.SEGMENTATION).2 with
    | some (some d) => (popAll d (keysOf images)).map SegmentationData.mk
    | _ => none)

/-- Segmentation application for the group list of one pair, in group list
order, stopping at the first exception. -/
def segGroupsStep (images : KC) :
    Transform → List SegmentationData → Transform × Option (List SegmentationData)
  | t, [] => (t, some [])
  | t, sd :: rest =>
      match (segGroupStep images t sd).2 with
      | none => ((segGroupStep images t sd).1, none)
      | some sd' =>
          ((segGroupsStep images (segGroupStep images t sd).1 rest).1,
            ((segGroupsStep images (segGroupStep images t sd).1 rest).2).map (sd' :: ·))

/-- Segmentation application for one pair: its groups are processed with the
shared base image collection; a pair with no groups is skipped. -/
def entrySegStep (images : KC) (t : Transform) (e : ImageAndSegmentationData) :
    Transform × Option ImageAndSegmentationData :=
  ((segGroupsStep images t e.segmentations).1,
    ((segGroupsStep images t e.segmentations).2).map
      (fun sds => { e with segmentations := sds }))

/-- Segmentation application over the pair list, in order. -/
def entriesSegStep (images : KC) :
    Transform → List ImageAndSegmentationData → Transform × Option (List ImageAndSegmentationData)
  | t, [] => (t, some [])
  | t, e :: rest =>
      match (entrySegStep images t e).2 with
      | none => ((entrySegStep images t e).1, none)
      | some e' =>
          ((entriesSegStep images (entrySegStep images t e).1 rest).1,
            ((entriesSegStep images (entrySegStep images t e).1 rest).2).map (e' :: ·))

/-- Segmentation application of one transform step
(_apply_transform_on_segmentations of the source): build the base image
collection once, then process every pair's every group. -/
def _apply_transform_on_segmentations (pd : PatientDataModel) (transform : Transform) :
    Transform × Option PatientDataModel :=
  ((entriesSegStep (imagesDictOf pd) transform pd.data).1,
    ((entriesSegStep (imagesDictOf pd) transform pd.data).2).map PatientDataModel.mk)

/-- Modelled from the spec: set_transforms_keys
(dicom2hdf.transforms.tools, not under src/) assigns each image's transforms
key from the series description when available, else from the modality
(Key Assigner, spec 4.1); applied to one entry. -/
def setKeyOfEntry (e : ImageAndSegmentationData) : ImageAndSegmentationData :=
  { e with image := { e.image with
      transforms_key := e.image.series_description.getD e.image.modality } }

/-- Modelled from the spec: set_transforms_keys over the whole record. -/
def set_transforms_keys (pd : PatientDataModel) : PatientDataModel :=
  PatientDataModel.mk (pd.data.map setKeyOfEntry)

/-- The pipeline argument of apply_transforms: a composite ordered sequence
(monai Compose) or a single transform. -/
inductive TransformsArg where
  | compose : List Transform → TransformsArg
  | single : Transform → TransformsArg

/-- One transform step of the orchestrator: segmentations first, then images,
threading the transform's flag state between the two invocations. -/
def applyStep (pd : PatientDataModel) (t : Transform) : Transform × Option PatientDataModel :=
  match (_apply_transform_on_segmentations pd t).2 with
  | none => ((_apply_transform_on_segmentations pd t).1, none)
  | some pd1 => _apply_transform_on_images pd1 (_apply_transform_on_segmentations pd t).1

/-- The orchestrator's loop over a composite pipeline, in declared order. -/
def applySeq : PatientDataModel → List Transform → Option PatientDataModel
  | pd, [] => some pd
  | pd, t :: ts =>
      match (applyStep pd t).2 with
      | none => none
      | some pd' => applySeq pd' ts

/-- Pipeline orchestrator (apply_transforms of the source): assign keys once,
then walk the pipeline; the final record state is returned (`none` when a
step raised). -/
def apply_transforms (pd : PatientDataModel) (transforms : TransformsArg) :
    Option PatientDataModel :=
  match transforms with
  | TransformsArg.compose ts => applySeq (set_transforms_keys pd) ts
  | TransformsArg.single t => (applyStep (set_transforms_keys pd) t).2

/-! Helper lemmas about the dictionary model. -/

theorem lookupKV_map {α β : Type} (f : α → β) (l : List (String × α)) (k : String) :
    lookupKV (l.map (fun kv => (kv.1, f kv.2))) k = (lookupKV l k).map f := by
  induction l with
  | nil => rfl
  | cons kv rest ih =>
      by_cases h : kv.1 = k
      · simp [lookupKV, h]
      · simp [lookupKV, h, ih]

theorem containsKey_iff_mem {α : Type} (d : List (String × α)) (k : String) :
    containsKey d k = true ↔ k ∈ keysOf d := by
  induction d with
  | nil => simp [containsKey, lookupKV, keysOf]
  | cons kv rest ih =>
      by_cases h : kv.1 = k
      · simp [containsKey, lookupKV, keysOf, h]
      · simp only [containsKey, lookupKV, if_neg h, keysOf, List.map_cons, List.mem_cons]
        constructor
        · intro hx
          exact Or.inr ((ih).mp hx)
        · intro hx
          rcases hx with hx | hx
          · exact absurd hx.symm h
          · exact (ih).mpr hx

theorem containsKey_append {α : Type} (l1 l2 : List (String × α)) (k : String) :
    containsKey (l1 ++ l2) k = (containsKey l1 k || containsKey l2 k) := by
  induction l1 with
  | nil => simp [containsKey, lookupKV]
  | cons kv rest ih =>
      by_cases h : kv.1 = k
      · simp [containsKey, lookupKV, h]
      · simpa [containsKey, lookupKV, h] using ih

theorem insertKV_of_not_contains {α : Type} (d : List (String × α)) (k : String) (v : α)
    (h : containsKey d k = false) : insertKV d k v = d ++ [(k, v)] := by
  induction d with
  | nil => rfl
  | cons kv rest ih =>
      by_cases hk : kv.1 = k
      · simp [containsKey, lookupKV, hk] at h
      · have hrest : containsKey rest k = false := by
          simpa [containsKey, lookupKV, hk] using h
        simp [insertKV, hk, ih hrest]

theorem keysOf_append {α : Type} (l1 l2 : List (String × α)) :
    keysOf (l1 ++ l2) = keysOf l1 ++ keysOf l2 := by
  simp [keysOf]

theorem mem_keysOf_of_mem {α : Type} {d : List (String × α)} {k : String} {v : α}
    (h : (k, v) ∈ d) : k ∈ keysOf d := by
  unfold keysOf
  exact List.mem_map.mpr ⟨(k, v), h, rfl⟩

theorem lookupKV_of_mem_nodup {α : Type} {d : List (String × α)} {k : String} {v : α}
    (hnd : NodupKeys d) (h : (k, v) ∈ d) : lookupKV d k = some v := by
  induction d with
  | nil => simp at h
  | cons kv rest ih =>
      rcases List.mem_cons.mp h with h0 | h0
      · subst h0
        simp [lookupKV]
      · have hsplit : kv.1 ∉ keysOf rest ∧ (keysOf rest).Nodup := by
          have hx := hnd
          unfold NodupKeys keysOf at hx
          rw [List.map_cons, List.nodup_cons] at hx
          exact hx
        have hk : kv.1 ≠ k := by
          intro he
          exact hsplit.1 (he ▸ mem_keysOf_of_mem h0)
        simp [lookupKV, hk, ih hsplit.2 h0]

theorem popKV_of_not_contains {α : Type} (d : List (String × α)) (k : String)
    (h : containsKey d k = false) : popKV d k = none := by
  induction d with
  | nil => rfl
  | cons kv rest ih =>
      by_cases hk : kv.1 = k
      · simp [containsKey, lookupKV, hk] at h
      · have hrest : containsKey rest k = false := by
          simpa [containsKey, lookupKV, hk] using h
        simp [popKV, hk, ih hrest]

theorem not_contains_of_popKV {α : Type} :
    ∀ (d d' : List (String × α)) (k' k : String), popKV d k' = some d' →
      containsKey d k = false → containsKey d' k = false
  | [], _, _, _, h, _ => by simp [popKV] at h
  | kv :: rest, d', k', k, h, hc => by
      by_cases hk : kv.1 = k'
      · have hd' : d' = rest := by
          simp [popKV, hk] at h
          exact h.symm
        subst hd'
        by_cases hkk : kv.1 = k
        · simp [containsKey, lookupKV, hkk] at hc
        · simpa [containsKey, lookupKV, hkk] using hc
      · rcases hrec : popKV rest k' with _ | d₂
        · simp [popKV, hk, hrec] at h
        · have hd' : d' = kv :: d₂ := by
            simp [popKV, hk, hrec] at h
            exact h.symm
          subst hd'
          by_cases hkk : kv.1 = k
          · simp [containsKey, lookupKV, hkk] at hc
          · have hrest : containsKey rest k = false := by
              simpa [containsKey, lookupKV, hkk] using hc
            have := not_contains_of_popKV rest d₂ k' k hrec hrest
            simpa [containsKey, lookupKV, hkk] using this

theorem popAll_none_of_missing {α : Type} :
    ∀ (ks : List String) (d : List (String × α)) (k : String), k ∈ ks →
      containsKey d k = false → popAll d ks = none
  | [], _, _, hk, _ => by simp at hk
  | k' :: ks', d, k, hk, hc => by
      by_cases h0 : k' = k
      · subst h0
        simp [popAll, popKV_of_not_contains d k' hc]
      · rcases List.mem_cons.mp hk with h1 | h1
        · exact absurd h1.symm h0
        · rcases hpop : popKV d k' with _ | d'
          · simp [popAll, hpop]
          · have hc' : containsKey d' k = false :=
              not_contains_of_popKV d d' k' k hpop hc
            simp [popAll, hpop, popAll_none_of_missing ks' d' k h1 hc']

theorem popAll_append {α : Type} :
    ∀ (l1 l2 : List (String × α)), popAll (l1 ++ l2) (keysOf l1) = some l2
  | [], l2 => rfl
  | kv :: rest, l2 => by
      simp [keysOf, popAll, popKV]
      simpa [keysOf] using popAll_append rest l2

theorem popAll_of_keys_split {α : Type} :
    ∀ (ks : List String) (out : List (String × α)) (rest : List String),
      keysOf out = ks ++ rest →
      ∃ out', popAll out ks = some out' ∧ keysOf out' = rest
  | [], out, rest, h => ⟨out, rfl, by simpa using h⟩
  | k :: ks', out, rest, h => by
      cases out with
      | nil => simp [keysOf] at h
      | cons kv out₂ =>
          have hk : kv.1 = k := by
            simpa [keysOf] using congrArg (fun l => l.headI) h
          have htail : keysOf out₂ = ks' ++ rest := by
            simpa [keysOf] using congrArg List.tail h
          rcases popAll_of_keys_split ks' out₂ rest htail with ⟨out', h1, h2⟩
          exact ⟨out', by simp [popAll, popKV, hk, h1], h2⟩

/-! Helper lemmas about the optional map. -/

theorem omapM_forall₂ {α β : Type} (f : α → Option β) :
    ∀ (l : List α) (r : List β), omapM f l = some r →
      List.Forall₂ (fun a b => f a = some b) l r
  | [], r, h => by
      simp [omapM] at h
      subst h
      exact List.Forall₂.nil
  | a :: rest, r, h => by
      rcases ha : f a with _ | b
      · simp [omapM, ha] at h
      · rcases hrest : omapM f rest with _ | r'
        · simp [omapM, ha, hrest] at h
        · have hr : r = b :: r' := by
            simp [omapM, ha, hrest] at h
            exact h.symm
          subst hr
          exact List.Forall₂.cons ha (omapM_forall₂ f rest r' hrest)

theorem omapM_of_forall_id {α : Type} (f : α → Option α) :
    ∀ (l : List α), (∀ a ∈ l, f a = some a) → omapM f l = some l
  | [], _ => rfl
  | a :: rest, h => by
      have ha := h a (List.mem_cons_self a rest)
      have hrest := omapM_of_forall_id f rest (fun x hx => h x (List.mem_cons_of_mem a hx))
      simp [omapM, ha, hrest]

theorem omapM_map_eq_some_self {α β : Type} (f : β → Option α) (g : α → β) :
    ∀ (l : List α), (∀ a ∈ l, f (g a) = some a) → omapM f (l.map g) = some l
  | [], _ => rfl
  | a :: rest, h => by
      have ha := h a (List.mem_cons_self a rest)
      have hrest := omapM_map_eq_some_self f g rest (fun x hx => h x (List.mem_cons_of_mem a hx))
      simp [omapM, ha, hrest]

theorem omapM_none_of_mem {α β : Type} (f : α → Option β) :
    ∀ (l : List α) (a : α), a ∈ l → f a = none → omapM f l = none
  | [], a, ha, _ => by simp at ha
  | a0 :: rest, a, ha, hf => by
      rcases List.mem_cons.mp ha with h0 | h0
      · subst h0
        simp [omapM, hf]
      · have := omapM_none_of_mem f rest a h0 hf
        cases hfa : f a0 <;> simp [omapM, hfa, this]

theorem keysOf_insertKV_of_contains {α : Type} (d : List (String × α)) (k : String) (v : α)
    (h : containsKey d k = true) : keysOf (insertKV d k v) = keysOf d := by
  induction d with
  | nil => simp [containsKey, lookupKV] at h
  | cons kv rest ih =>
      by_cases hk : kv.1 = k
      · simp [insertKV, hk, keysOf]
      · have hrest : containsKey rest k = true := by
          simpa [containsKey, lookupKV, hk] using h
        simp [insertKV, hk, keysOf] at ih ⊢
        exact ih hrest

theorem nodupKeys_insertKV {α : Type} (d : List (String × α)) (k : String) (v : α)
    (h : NodupKeys d) : NodupKeys (insertKV d k v) := by
  cases hc : containsKey d k with
  | false =>
      rw [insertKV_of_not_contains d k v hc]
      unfold NodupKeys
      rw [keysOf_append, List.nodup_append]
      refine ⟨h, List.nodup_singleton _, ?_⟩
      intro a ha hb
      have hak : a = k := by simpa [keysOf] using hb
      subst hak
      have := (containsKey_iff_mem d a).mpr ha
      rw [this] at hc
      exact Bool.noConfusion hc
  | true =>
      unfold NodupKeys
      rw [keysOf_insertKV_of_contains d k v hc]
      exact h

theorem nodupKeys_foldl_insert {α : Type} (l : List (String × α)) :
    ∀ acc, NodupKeys acc → NodupKeys (l.foldl (fun d kv => insertKV d kv.1 kv.2) acc) := by
  induction l with
  | nil => intro acc h; exact h
  | cons kv rest ih =>
      intro acc h
      simpa [List.foldl_cons] using ih _ (nodupKeys_insertKV acc kv.1 kv.2 h)

theorem nodupKeys_dictOfPairs {α : Type} (l : List (String × α)) :
    NodupKeys (dictOfPairs l) :=
  nodupKeys_foldl_insert l [] (by simp [NodupKeys, keysOf])

theorem foldl_insert_append {α : Type} (l : List (String × α)) :
    ∀ acc, NodupKeys (acc ++ l) →
      l.foldl (fun d kv => insertKV d kv.1 kv.2) acc = acc ++ l := by
  induction l with
  | nil => intro acc _; simp
  | cons kv rest ih =>
      intro acc h
      have hdisj : ∀ a ∈ keysOf acc, a ∉ keysOf (kv :: rest) := by
        have hx := h
        unfold NodupKeys at hx
        rw [keysOf_append, List.nodup_append] at hx
        exact fun a ha hb => hx.2.2 ha hb
      have hnotin : containsKey acc kv.1 = false := by
        cases hcc : containsKey acc kv.1 with
        | false => rfl
        | true =>
            have hmem : kv.1 ∈ keysOf acc := (containsKey_iff_mem _ _).mp hcc
            have : kv.1 ∈ keysOf (kv :: rest) := by simp [keysOf]
            exact absurd this (hdisj kv.1 hmem)
      have hstep : insertKV acc kv.1 kv.2 = acc ++ [kv] :=
        insertKV_of_not_contains acc kv.1 kv.2 hnotin
      have hih := ih (acc ++ [kv]) (by
        rw [List.append_assoc, List.singleton_append]
        exact h)
      rw [List.foldl_cons, hstep, hih, List.append_assoc, List.singleton_append]

theorem dictOfPairs_eq_self {α : Type} (l : List (String × α)) (h : NodupKeys l) :
    dictOfPairs l = l := by
  have := foldl_insert_append l [] (by simpa using h)
  simpa [dictOfPairs] using this

theorem nodupKeys_append {α : Type} (l1 l2 : List (String × α))
    (h1 : NodupKeys l1) (h2 : NodupKeys l2)
    (hd : ∀ k ∈ keysOf l2, containsKey l1 k = false) : NodupKeys (l1 ++ l2) := by
  unfold NodupKeys
  rw [keysOf_append, List.nodup_append]
  refine ⟨h1, h2, ?_⟩
  intro a ha hb
  have := hd a hb
  rw [(containsKey_iff_mem l1 a).mpr ha] at this
  exact Bool.noConfusion this

theorem overlay_eq_append (base labels : KC) (h : NodupKeys (base ++ labels)) :
    overlayLabels base labels = base ++ labels :=
  foldl_insert_append labels base h

/-! Helper lemmas about the array-space bridge. -/

theorem lookupKV_infoOf (data : KC) (k : String) :
    lookupKV (infoOf data) k =
      (lookupKV data k).map (fun img => SitkImageInfo.mk img.spacing img.origin img.direction) := by
  induction data with
  | nil => rfl
  | cons kv rest ih =>
      by_cases h : kv.1 = k
      · simp [infoOf, lookupKV, h]
      · simp [infoOf, lookupKV, h] at ih ⊢
        exact ih

/-! Mode-flag state: the data result of the applicator never depends on the
incoming value of the mutable mode attribute, which is overwritten before
every invocation. -/

/-- The transform with its mode flag forgotten (set to the neutral state). -/
def Transform.stripMode : Transform → Transform
  | Transform.d2h t => Transform.d2h (Dicom2hdfTransform.mk Mode.NONE t.call)
  | t => t

theorem apply_d2h_snd (data : KC) (t : Dicom2hdfTransform) (mode : Mode) :
    (_apply_dicom2hdf_transform data t mode).2 = t.call mode data := by
  unfold _apply_dicom2hdf_transform
  cases h : t.call mode data <;> simp [h]

theorem apply_d2h_fst_call (data : KC) (t : Dicom2hdfTransform) (mode : Mode) :
    ((_apply_dicom2hdf_transform data t mode).1).call = t.call := by
  unfold _apply_dicom2hdf_transform
  cases h : t.call mode data <;> simp [h]

theorem apply_transform_fst_strip (data : KC) (t : Transform) (mode : Mode) :
    ((_apply_transform data t mode).1).stripMode = t.stripMode := by
  cases t with
  | d2h a => simp [_apply_transform, Transform.stripMode, apply_d2h_fst_call]
  | monai a => rfl
  | other => rfl

theorem apply_transform_snd_congr (data : KC) (mode : Mode) {t t' : Transform}
    (h : t.stripMode = t'.stripMode) :
    (_apply_transform data t mode).2 = (_apply_transform data t' mode).2 := by
  cases t with
  | d2h a =>
      cases t' with
      | d2h b =>
          have hc : a.call = b.call := by
            simpa [Transform.stripMode, Dicom2hdfTransform.mk.injEq] using h
          simp [_apply_transform, apply_d2h_snd, hc]
      | monai b => simp [Transform.stripMode] at h
      | other => simp [Transform.stripMode] at h
  | monai a =>
      cases t' with
      | d2h b => simp [Transform.stripMode] at h
      | monai b =>
          have hb : a = b := by simpa [Transform.stripMode] using h
          subst hb
          rfl
      | other => simp [Transform.stripMode] at h
  | other =>
      cases t' with
      | d2h b => simp [Transform.stripMode] at h
      | monai b => simp [Transform.stripMode] at h
      | other => rfl

/-! Claim C1: spatial metadata is preserved across the array-space path. -/

theorem monai_lookup_aux (data : KC) :
    ∀ (td : AC) (out : KC),
      omapM (fun kv => (lookupKV (infoOf data) kv.1).map
        (fun i => (kv.1, restoreImage i kv.2))) td = some out →
      ∀ (k : String) (img' : SitkImage), lookupKV out k = some img' →
        ∃ i, lookupKV (infoOf data) k = some i ∧
          img'.spacing = i.spacing ∧ img'.origin = i.origin ∧ img'.direction = i.direction
  | [], out, h, k, img', hk => by
      simp [omapM] at h
      subst h
      simp [lookupKV] at hk
  | kv :: rest, out, h, k, img', hk => by
      rcases hi : lookupKV (infoOf data) kv.1 with _ | i
      · simp [omapM, hi] at h
      · rcases hrest : omapM (fun kv => (lookupKV (infoOf data) kv.1).map
            (fun i => (kv.1, restoreImage i kv.2))) rest with _ | out'
        · simp [omapM, hi, hrest] at h
        · have hout : out = (kv.1, restoreImage i kv.2) :: out' := by
            simp [omapM, hi, hrest] at h
            exact h.symm
          subst hout
          by_cases hkk : kv.1 = k
          · subst hkk
            have himg : img' = restoreImage i kv.2 := by
              simp [lookupKV] at hk
              exact hk.symm
            subst himg
            exact ⟨i, hi, rfl, rfl, rfl⟩
          · have hk' : lookupKV out' k = some img' := by
              simpa [lookupKV, hkk] using hk
            exact monai_lookup_aux data rest out' hrest k img' hk'

/-- C1: for every keyed collection passed through the array-space execution
path, every key of the resulting collection carries spacing, origin and
direction element-wise equal to the corresponding object's pre-transform
metadata, regardless of what the intervening transform did to the voxel
content. -/
theorem c1_array_path_preserves_metadata (data : KC) (m : MonaiMapTransform) (out : KC)
    (happ : _apply_monai_transforms data m = some out)
    (k : String) (img' : SitkImage) (hk : lookupKV out k = some img') :
    ∃ img : SitkImage, lookupKV data k = some img ∧
      img'.spacing = img.spacing ∧ img'.origin = img.origin ∧
      img'.direction = img.direction := by
  unfold _apply_monai_transforms at happ
  rcases hc : m.call (EnsureChannelFirstD m.keys (arraysOf data)) with _ | td
  · rw [hc] at happ
    exact absurd happ (by simp)
  · rw [hc] at happ
    rcases monai_lookup_aux data td out happ k img' hk with ⟨i, hi, h1, h2, h3⟩
    rw [lookupKV_infoOf] at hi
    rcases himg : lookupKV data k with _ | img
    · rw [himg] at hi
      exact absurd hi (by simp)
    · rw [himg] at hi
      have hieq : i = SitkImageInfo.mk img.spacing img.origin img.direction := by
        simpa using hi.symm
      subst hieq
      exact ⟨img, rfl, h1, h2, h3⟩

/-! Concrete sample objects used by the witness theorems. -/

/-- Sample image with distinctive metadata. -/
def imgCT : SitkImage :=
  SitkImage.mk (NArray.mk false [7, 8]) [2, 2, 3] [0, 0, 1] [1, 0, 0, 0, 1, 0, 0, 0, 1]

/-- Sample label map. -/
def imgLiver : SitkImage :=
  SitkImage.mk (NArray.mk false [0, 1]) [2, 2, 3] [0, 0, 1] [1, 0, 0, 0, 1, 0, 0, 0, 1]

/-- Sample keyed collection with a single image. -/
def kcCT : KC := [("CT", imgCT)]

/-- Identity array-space transform interested in the CT key. -/
def monaiIdCT : MonaiMapTransform := MonaiMapTransform.mk ["CT"] (fun d => some d)

/-- The image after the array-space path inserted the channel axis. -/
def imgCTChanneled : SitkImage :=
  SitkImage.mk (NArray.mk true [7, 8]) [2, 2, 3] [0, 0, 1] [1, 0, 0, 0, 1, 0, 0, 0, 1]

theorem c1_witness :
    (_apply_monai_transforms kcCT monaiIdCT = some [("CT", imgCTChanneled)] ∧
      lookupKV [("CT", imgCTChanneled)] "CT" = some imgCTChanneled) ∧
    (∃ img : SitkImage, lookupKV kcCT "CT" = some img ∧
      imgCTChanneled.spacing = img.spacing ∧ imgCTChanneled.origin = img.origin ∧
      imgCTChanneled.direction = img.direction) :=
  ⟨⟨by decide, by decide⟩,
    c1_array_path_preserves_metadata kcCT monaiIdCT [("CT", imgCTChanneled)]
      (by decide) "CT" imgCTChanneled (by decide)⟩

/-! Claims C7, C8, C10: mode-flag handling and the unrecognized-kind
fall-through of the single-transform applicator. -/

/-- C7: the physical-space applicator sets the transform's mode flag to the
given mode (IMAGE or SEGMENTATION) before invoking the transform — the
invocation's result is the callable run with that flag — and after a
successful invocation the transform's flag equals the neutral NONE state. -/
theorem c7_mode_flag_set_then_reset (data : KC) (t : Dicom2hdfTransform) (mode : Mode)
    (out : KC) (_hmode : mode = Mode.IMAGE ∨ mode = Mode.SEGMENTATION)
    (hcall : t.call mode data = some out) :
    (_apply_dicom2hdf_transform data t mode).2 = t.call mode data ∧
    _apply_dicom2hdf_transform data t mode =
      (Dicom2hdfTransform.mk Mode.NONE t.call, some out) := by
  refine ⟨apply_d2h_snd data t mode, ?_⟩
  unfold _apply_dicom2hdf_transform
  rw [hcall]

/-- C10: when the physical-space transform's invocation raises, the exception
propagates while the transform's mode flag keeps the invocation mode; the
reset to NONE happens only on a successful return. -/
theorem c10_flag_kept_on_exception (data : KC) (t : Dicom2hdfTransform) (mode : Mode)
    (_hmode : mode = Mode.IMAGE ∨ mode = Mode.SEGMENTATION)
    (hcall : t.call mode data = none) :
    _apply_dicom2hdf_transform data t mode = (Dicom2hdfTransform.mk mode t.call, none) := by
  unfold _apply_dicom2hdf_transform
  rw [hcall]

/-- C8: a pipeline element of neither recognized transform family makes the
single-transform applicator return no result (the Python function falls
through and returns None) without raising an explicit error. -/
theorem c8_unrecognized_returns_no_result (data : KC) (mode : Mode) :
    _apply_transform data Transform.other mode = (Transform.other, some none) :=
  rfl

/-- Identity physical-space transform. -/
def d2hId : Dicom2hdfTransform := Dicom2hdfTransform.mk Mode.NONE (fun _ d => some d)

/-- Always-raising physical-space transform. -/
def d2hFail : Dicom2hdfTransform := Dicom2hdfTransform.mk Mode.NONE (fun _ _ => none)

theorem c7_witness :
    ((Mode.IMAGE = Mode.IMAGE ∨ Mode.IMAGE = Mode.SEGMENTATION) ∧
      d2hId.call Mode.IMAGE kcCT = some kcCT) ∧
    ((_apply_dicom2hdf_transform kcCT d2hId Mode.IMAGE).2 = d2hId.call Mode.IMAGE kcCT ∧
      _apply_dicom2hdf_transform kcCT d2hId Mode.IMAGE =
        (Dicom2hdfTransform.mk Mode.NONE d2hId.call, some kcCT)) :=
  ⟨⟨Or.inl rfl, rfl⟩,
    c7_mode_flag_set_then_reset kcCT d2hId Mode.IMAGE kcCT (Or.inl rfl) rfl⟩

theorem c10_witness :
    ((Mode.SEGMENTATION = Mode.IMAGE ∨ Mode.SEGMENTATION = Mode.SEGMENTATION) ∧
      d2hFail.call Mode.SEGMENTATION kcCT = none) ∧
    _apply_dicom2hdf_transform kcCT d2hFail Mode.SEGMENTATION =
      (Dicom2hdfTransform.mk Mode.SEGMENTATION d2hFail.call, none) :=
  ⟨⟨Or.inr rfl, rfl⟩,
    c10_flag_kept_on_exception kcCT d2hFail Mode.SEGMENTATION (Or.inr rfl) rfl⟩

/-! Claim C9: the write-back phases look every input image key up in the
transform's output and fail on a missing key. -/

/-- C9: image write-back indexes the transform output by each pair's image
key and segmentation write-back pops each image key from the output, so when
the output is missing an image key present in the input the step ends in a
key-lookup failure instead of completing. -/
theorem c9_missing_image_key_fails (pd : PatientDataModel) (t : Transform) (d : KC)
    (images : KC) (sd : SegmentationData) (td : KC) :
    ((_apply_transform (imagesDictOf pd) t Mode.IMAGE).2 = some (some d) →
      (∃ e ∈ pd.data, lookupKV d e.image.transforms_key = none) →
      (_apply_transform_on_images pd t).2 = none) ∧
    ((_apply_transform (overlayLabels (deepcopy images) sd.simple_itk_label_maps) t
        Mode.SEGMENTATION).2 = some (some td) →
      (∃ k ∈ keysOf images, containsKey td k = false) →
      (segGroupStep images t sd).2 = none) := by
  constructor
  · rintro happ ⟨e, he, hnone⟩
    have hwb : writeBackImage d e = none := by
      unfold writeBackImage
      rw [hnone]
      rfl
    simp only [_apply_transform_on_images, happ]
    rw [omapM_none_of_mem (writeBackImage d) pd.data e he hwb]
    rfl
  · rintro happ ⟨k, hk, hcont⟩
    have hpop : popAll td (keysOf images) = none :=
      popAll_none_of_missing (keysOf images) td k hk hcont
    simp only [segGroupStep, happ]
    rw [hpop]
    rfl

/-- Physical-space transform that drops every key of its input. -/
def d2hDrop : Dicom2hdfTransform := Dicom2hdfTransform.mk Mode.NONE (fun _ _ => some [])

/-- Sample pair: the CT image with one liver segmentation group. -/
def entryCT : ImageAndSegmentationData :=
  ImageAndSegmentationData.mk
    (ImageData.mk (some "CT") "CT" "CT" imgCT)
    [SegmentationData.mk [("liver", imgLiver)]]

/-- Sample one-pair patient record with assigned keys. -/
def pdCT : PatientDataModel := PatientDataModel.mk [entryCT]

/-- Sample segmentation group. -/
def sdLiver : SegmentationData := SegmentationData.mk [("liver", imgLiver)]

theorem c9_witness :
    (((_apply_transform (imagesDictOf pdCT) (Transform.d2h d2hDrop) Mode.IMAGE).2 =
          some (some []) ∧
        (∃ e ∈ pdCT.data, lookupKV ([] : KC) e.image.transforms_key = none)) ∧
      (_apply_transform_on_images pdCT (Transform.d2h d2hDrop)).2 = none) ∧
    (((_apply_transform (overlayLabels (deepcopy kcCT) sdLiver.simple_itk_label_maps)
          (Transform.d2h d2hDrop) Mode.SEGMENTATION).2 = some (some []) ∧
        (∃ k ∈ keysOf kcCT, containsKey ([] : KC) k = false)) ∧
      (segGroupStep kcCT (Transform.d2h d2hDrop) sdLiver).2 = none) :=
  ⟨⟨⟨by decide, by decide⟩,
      (c9_missing_image_key_fails pdCT (Transform.d2h d2hDrop) [] kcCT sdLiver []).1
        (by decide) (by decide)⟩,
    ⟨⟨by decide, by decide⟩,
      (c9_missing_image_key_fails pdCT (Transform.d2h d2hDrop) [] kcCT sdLiver []).2
        (by decide) (by decide)⟩⟩

/-! Factorization of the threaded recursions: the flag state threaded through
the loops never changes the data outcome, because every invocation overwrites
the flag first. -/

theorem omapM_congr {α β : Type} (f g : α → Option β) :
    ∀ (l : List α), (∀ a ∈ l, f a = g a) → omapM f l = omapM g l
  | [], _ => rfl
  | a :: rest, h => by
      have ha := h a (List.mem_cons_self a rest)
      have hrest := omapM_congr f g rest (fun x hx => h x (List.mem_cons_of_mem a hx))
      simp [omapM, ha, hrest]

theorem segGroupStep_fst_strip (images : KC) (t : Transform) (sd : SegmentationData) :
    ((segGroupStep images t sd).1).stripMode = t.stripMode :=
  apply_transform_fst_strip _ t Mode.SEGMENTATION

theorem segGroupStep_snd_congr (images : KC) (sd : SegmentationData) {t t' : Transform}
    (h : t.stripMode = t'.stripMode) :
    (segGroupStep images t sd).2 = (segGroupStep images t' sd).2 := by
  have h2 := apply_transform_snd_congr
    (overlayLabels (deepcopy images) sd.simple_itk_label_maps) Mode.SEGMENTATION h
  simp only [segGroupStep]
  rw [h2]

theorem segGroupsStep_snd (images : KC) (sds : List SegmentationData) :
    ∀ (t : Transform),
      (segGroupsStep images t sds).2 = omapM (fun sd => (segGroupStep images t sd).2) sds := by
  induction sds with
  | nil => intro t; rfl
  | cons sd rest ih =>
      intro t
      rcases h1 : (segGroupStep images t sd).2 with _ | sd'
      · simp [segGroupsStep, omapM, h1]
      · have hstrip := segGroupStep_fst_strip images t sd
        have hcong : ∀ x ∈ rest,
            (segGroupStep images ((segGroupStep images t sd).1) x).2 =
              (segGroupStep images t x).2 :=
          fun x _ => segGroupStep_snd_congr images x hstrip
        calc (segGroupsStep images t (sd :: rest)).2
            = ((segGroupsStep images (segGroupStep images t sd).1 rest).2).map
                (sd' :: ·) := by
              simp [segGroupsStep, h1]
          _ = (omapM (fun x => (segGroupStep images (segGroupStep images t sd).1 x).2)
                rest).map (sd' :: ·) := by
              rw [ih]
          _ = (omapM (fun x => (segGroupStep images t x).2) rest).map (sd' :: ·) := by
              rw [omapM_congr _ _ rest hcong]
          _ = omapM (fun sd => (segGroupStep images t sd).2) (sd :: rest) := by
              simp [omapM, h1]

theorem segGroupsStep_fst_strip (images : KC) (sds : List SegmentationData) :
    ∀ (t : Transform), ((segGroupsStep images t sds).1).stripMode = t.stripMode := by
  induction sds with
  | nil => intro t; rfl
  | cons sd rest ih =>
      intro t
      rcases h1 : (segGroupStep images t sd).2 with _ | sd'
      · simpa [segGroupsStep, h1] using segGroupStep_fst_strip images t sd
      · have := ih ((segGroupStep images t sd).1)
        simp only [segGroupsStep, h1]
        rw [this]
        exact segGroupStep_fst_strip images t sd

theorem entrySegStep_fst_strip (images : KC) (t : Transform) (e : ImageAndSegmentationData) :
    ((entrySegStep images t e).1).stripMode = t.stripMode :=
  segGroupsStep_fst_strip images e.segmentations t

theorem entrySegStep_snd_congr (images : KC) (e : ImageAndSegmentationData)
    {t t' : Transform} (h : t.stripMode = t'.stripMode) :
    (entrySegStep images t e).2 = (entrySegStep images t' e).2 := by
  have h2 : (segGroupsStep images t e.segmentations).2 =
      (segGroupsStep images t' e.segmentations).2 := by
    rw [segGroupsStep_snd, segGroupsStep_snd]
    exact omapM_congr _ _ e.segmentations
      (fun x _ => segGroupStep_snd_congr images x h)
  simp only [entrySegStep]
  rw [h2]

theorem entriesSegStep_snd (images : KC) (es : List ImageAndSegmentationData) :
    ∀ (t : Transform),
      (entriesSegStep images t es).2 = omapM (fun e => (entrySegStep images t e).2) es := by
  induction es with
  | nil => intro t; rfl
  | cons e rest ih =>
      intro t
      rcases h1 : (entrySegStep images t e).2 with _ | e'
      · simp [entriesSegStep, omapM, h1]
      · have hstrip := entrySegStep_fst_strip images t e
        have hcong : ∀ x ∈ rest,
            (entrySegStep images ((entrySegStep images t e).1) x).2 =
              (entrySegStep images t x).2 :=
          fun x _ => entrySegStep_snd_congr images x hstrip
        calc (entriesSegStep images t (e :: rest)).2
            = ((entriesSegStep images (entrySegStep images t e).1 rest).2).map
                (e' :: ·) := by
              simp [entriesSegStep, h1]
          _ = (omapM (fun x => (entrySegStep images (entrySegStep images t e).1 x).2)
                rest).map (e' :: ·) := by
              rw [ih]
          _ = (omapM (fun x => (entrySegStep images t x).2) rest).map (e' :: ·) := by
              rw [omapM_congr _ _ rest hcong]
          _ = omapM (fun x => (entrySegStep images t x).2) (e :: rest) := by
              simp [omapM, h1]

theorem entriesSegStep_fst_strip (images : KC) (es : List ImageAndSegmentationData) :
    ∀ (t : Transform), ((entriesSegStep images t es).1).stripMode = t.stripMode := by
  induction es with
  | nil => intro t; rfl
  | cons e rest ih =>
      intro t
      rcases h1 : (entrySegStep images t e).2 with _ | e'
      · simpa [entriesSegStep, h1] using entrySegStep_fst_strip images t e
      · have := ih ((entrySegStep images t e).1)
        simp only [entriesSegStep, h1]
        rw [this]
        exact entrySegStep_fst_strip images t e

theorem segs_snd (pd : PatientDataModel) (t : Transform) :
    (_apply_transform_on_segmentations pd t).2 =
      ((entriesSegStep (imagesDictOf pd) t pd.data).2).map PatientDataModel.mk :=
  rfl

theorem segs_fst_strip (pd : PatientDataModel) (t : Transform) :
    ((_apply_transform_on_segmentations pd t).1).stripMode = t.stripMode :=
  entriesSegStep_fst_strip (imagesDictOf pd) pd.data t

theorem segs_snd_congr (pd : PatientDataModel) {t t' : Transform}
    (h : t.stripMode = t'.stripMode) :
    (_apply_transform_on_segmentations pd t).2 =
      (_apply_transform_on_segmentations pd t').2 := by
  rw [segs_snd, segs_snd, entriesSegStep_snd, entriesSegStep_snd,
    omapM_congr _ _ pd.data (fun x _ => entrySegStep_snd_congr (imagesDictOf pd) x h)]

theorem images_snd_congr (pd : PatientDataModel) {t t' : Transform}
    (h : t.stripMode = t'.stripMode) :
    (_apply_transform_on_images pd t).2 = (_apply_transform_on_images pd t').2 := by
  have h2 := apply_transform_snd_congr (imagesDictOf pd) Mode.IMAGE h
  simp only [_apply_transform_on_images]
  rw [h2]

/-! Claim C4: segmentation-group isolation. -/

/-- C4: within one transform step each segmentation group's outcome is
computed from the shared base image collection and the group's own label maps
alone — processing the group list equals an independent per-group map with
the same base images and the same transform for every group, so sibling
groups cannot interfere. -/
theorem c4_segmentation_groups_isolated (images : KC) (t : Transform)
    (sds : List SegmentationData) (_h : 2 ≤ sds.length) :
    (segGroupsStep images t sds).2 =
      omapM (fun sd => (segGroupStep images t sd).2) sds :=
  segGroupsStep_snd images sds t

/-- Second sample segmentation group, sharing the CT image context. -/
def sdHeart : SegmentationData := SegmentationData.mk [("heart", imgLiver)]

theorem c4_witness :
    2 ≤ ([sdLiver, sdHeart] : List SegmentationData).length ∧
    (segGroupsStep kcCT (Transform.d2h d2hId) [sdLiver, sdHeart]).2 =
      omapM (fun sd => (segGroupStep kcCT (Transform.d2h d2hId) sd).2)
        [sdLiver, sdHeart] :=
  ⟨by decide,
    c4_segmentation_groups_isolated kcCT (Transform.d2h d2hId) [sdLiver, sdHeart]
      (by decide)⟩

/-! Claim C3: pipeline order — transforms in declared order, segmentations
before images within every step. -/

/-- One orchestrator step as the spec states it: apply the transform to the
segmentations of the current record first, then to its images, composed in
the error monad, so the segmentation application reads the pre-step image
state. -/
def stepSegsThenImages (pd : PatientDataModel) (t : Transform) : Option PatientDataModel :=
  ((_apply_transform_on_segmentations pd t).2).bind
    (fun pd1 => (_apply_transform_on_images pd1 t).2)

/-- The whole pipeline as the spec states it: the per-transform steps folded
over the declared order. -/
def pipelineFold : PatientDataModel → List Transform → Option PatientDataModel
  | pd, [] => some pd
  | pd, t :: ts => (stepSegsThenImages pd t).bind (fun pd' => pipelineFold pd' ts)

theorem applyStep_snd (pd : PatientDataModel) (t : Transform) :
    (applyStep pd t).2 = stepSegsThenImages pd t := by
  rcases h : (_apply_transform_on_segmentations pd t).2 with _ | pd1
  · simp [applyStep, stepSegsThenImages, h]
  · simp only [applyStep, h, stepSegsThenImages, Option.some_bind]
    exact images_snd_congr pd1 (segs_fst_strip pd t)

theorem applySeq_eq_pipelineFold (ts : List Transform) :
    ∀ pd, applySeq pd ts = pipelineFold pd ts := by
  induction ts with
  | nil => intro pd; rfl
  | cons t rest ih =>
      intro pd
      rcases h : (applyStep pd t).2 with _ | pd'
      · have hs : stepSegsThenImages pd t = none := by rw [← applyStep_snd, h]
        simp [applySeq, pipelineFold, h, hs]
      · have hs : stepSegsThenImages pd t = some pd' := by rw [← applyStep_snd, h]
        simp [applySeq, pipelineFold, h, hs, ih pd']

/-- C3: the orchestrator first assigns keys, then processes the declared
transform sequence strictly in order, each step applying the transform to
the segmentations first and then to the images of the resulting record; a
single transform is the one-element sequence. -/
theorem c3_declared_order_segs_before_images (pd : PatientDataModel)
    (ts : List Transform) (t : Transform) :
    apply_transforms pd (TransformsArg.compose ts) =
        pipelineFold (set_transforms_keys pd) ts ∧
    apply_transforms pd (TransformsArg.single t) =
        pipelineFold (set_transforms_keys pd) [t] ∧
    (applyStep pd t).2 = stepSegsThenImages pd t := by
  refine ⟨?_, ?_, applyStep_snd pd t⟩
  · exact applySeq_eq_pipelineFold ts (set_transforms_keys pd)
  · show (applyStep (set_transforms_keys pd) t).2 = _
    rw [applyStep_snd]
    rcases hs : stepSegsThenImages (set_transforms_keys pd) t with _ | pd'
    · simp [pipelineFold, hs]
    · simp [pipelineFold, hs]

/-! Claim C6: sequential composition.  The key facts are that a step never
touches an entry's series identity or assigned key, and that key assignment
is idempotent, so re-running the Key Assigner between two single-transform
calls is a no-op. -/

/-- Two pairs agreeing on series identity and assigned key. -/
def MetaEq (e e' : ImageAndSegmentationData) : Prop :=
  e'.image.series_description = e.image.series_description ∧
  e'.image.modality = e.image.modality ∧
  e'.image.transforms_key = e.image.transforms_key

theorem metaEq_trans_forall₂ :
    ∀ {l1 l2 l3 : List ImageAndSegmentationData},
      List.Forall₂ MetaEq l1 l2 → List.Forall₂ MetaEq l2 l3 → List.Forall₂ MetaEq l1 l3 := by
  intro l1 l2 l3 h12
  induction h12 generalizing l3 with
  | nil =>
      intro h23
      cases h23
      exact List.Forall₂.nil
  | cons hab hrest ih =>
      intro h23
      cases h23 with
      | cons hbc hrest23 =>
          refine List.Forall₂.cons ?_ (ih hrest23)
          exact ⟨hbc.1.trans hab.1, hbc.2.1.trans hab.2.1, hbc.2.2.trans hab.2.2⟩

theorem entrySegStep_some (images : KC) (t : Transform) (e e' : ImageAndSegmentationData)
    (h : (entrySegStep images t e).2 = some e') :
    ∃ sds, (segGroupsStep images t e.segmentations).2 = some sds ∧
      e' = { e with segmentations := sds } := by
  simp only [entrySegStep] at h
  rcases hg : (segGroupsStep images t e.segmentations).2 with _ | sds
  · rw [hg] at h
    exact absurd h (by simp)
  · rw [hg] at h
    exact ⟨sds, rfl, by simpa using h.symm⟩

theorem writeBackImage_some (d : KC) (e e' : ImageAndSegmentationData)
    (h : writeBackImage d e = some e') :
    ∃ img, lookupKV d e.image.transforms_key = some img ∧
      e' = { e with image := { e.image with simple_itk_image := img } } := by
  unfold writeBackImage at h
  rcases hl : lookupKV d e.image.transforms_key with _ | img
  · rw [hl] at h
    exact absurd h (by simp)
  · rw [hl] at h
    exact ⟨img, rfl, by simpa using h.symm⟩

theorem segs_metaEq (pd : PatientDataModel) (t : Transform) (pd' : PatientDataModel)
    (h : (_apply_transform_on_segmentations pd t).2 = some pd') :
    List.Forall₂ MetaEq pd.data pd'.data := by
  rw [segs_snd, entriesSegStep_snd] at h
  rcases ho : omapM (fun e => (entrySegStep (imagesDictOf pd) t e).2) pd.data with _ | l
  · rw [ho] at h
    exact absurd h (by simp)
  · rw [ho] at h
    have hpd' : pd' = PatientDataModel.mk l := by simpa using h.symm
    subst hpd'
    refine (omapM_forall₂ _ pd.data l ho).imp ?_
    intro e e' hee
    rcases entrySegStep_some (imagesDictOf pd) t e e' hee with ⟨sds, _, he'⟩
    subst he'
    exact ⟨rfl, rfl, rfl⟩

theorem images_metaEq (pd : PatientDataModel) (t : Transform) (pd' : PatientDataModel)
    (h : (_apply_transform_on_images pd t).2 = some pd') :
    List.Forall₂ MetaEq pd.data pd'.data := by
  simp only [_apply_transform_on_images] at h
  rcases hx : (_apply_transform (imagesDictOf pd) t Mode.IMAGE).2 with _ | op
  · rw [hx] at h
    exact absurd h (by simp)
  · rcases op with _ | d
    · rw [hx] at h
      exact absurd h (by simp)
    · simp only [hx] at h
      rcases ho : omapM (writeBackImage d) pd.data with _ | l
      · rw [ho] at h
        exact absurd h (by simp)
      · rw [ho] at h
        have hpd' : pd' = PatientDataModel.mk l := by simpa using h.symm
        subst hpd'
        refine (omapM_forall₂ _ pd.data l ho).imp ?_
        intro e e' hee
        rcases writeBackImage_some d e e' hee with ⟨img, _, he'⟩
        subst he'
        exact ⟨rfl, rfl, rfl⟩

theorem step_metaEq (pd : PatientDataModel) (t : Transform) (pd' : PatientDataModel)
    (h : (applyStep pd t).2 = some pd') : List.Forall₂ MetaEq pd.data pd'.data := by
  rw [applyStep_snd] at h
  unfold stepSegsThenImages at h
  rcases hs : (_apply_transform_on_segmentations pd t).2 with _ | pd1
  · rw [hs] at h
    exact absurd h (by simp)
  · rw [hs] at h
    have h2 : (_apply_transform_on_images pd1 t).2 = some pd' := by simpa using h
    exact metaEq_trans_forall₂ (segs_metaEq pd t pd1 hs) (images_metaEq pd1 t pd' h2)

theorem map_eq_self_of_forall {α : Type} :
    ∀ (l : List α) (f : α → α), (∀ a ∈ l, f a = a) → l.map f = l
  | [], _, _ => rfl
  | a :: rest, f, h => by
      have := map_eq_self_of_forall rest f (fun x hx => h x (List.mem_cons_of_mem a hx))
      simp [h a (List.mem_cons_self a rest), this]

theorem forall_of_map_eq_self {α : Type} :
    ∀ (l : List α) (f : α → α), l.map f = l → ∀ a ∈ l, f a = a
  | [], _, _, a, ha => by simp at ha
  | x :: rest, f, h, a, ha => by
      rw [List.map_cons] at h
      have hx : f x = x := (List.cons.injEq _ _ _ _ ▸ h).1
      have hrest : rest.map f = rest := (List.cons.injEq _ _ _ _ ▸ h).2
      rcases List.mem_cons.mp ha with h0 | h0
      · subst h0; exact hx
      · exact forall_of_map_eq_self rest f hrest a h0

theorem set_transforms_keys_idem (pd : PatientDataModel) :
    set_transforms_keys (set_transforms_keys pd) = set_transforms_keys pd := by
  unfold set_transforms_keys
  rw [List.map_map]
  have : setKeyOfEntry ∘ setKeyOfEntry = setKeyOfEntry := by
    funext e
    rfl
  rw [this]

theorem setKey_map_of_metaEq :
    ∀ {l l' : List ImageAndSegmentationData},
      List.Forall₂ MetaEq l l' → (∀ a ∈ l, setKeyOfEntry a = a) →
      l'.map setKeyOfEntry = l' := by
  intro l l' h
  induction h with
  | nil => intro _; rfl
  | cons hab hrest ih =>
      rename_i e e' le le'
      intro hall
      have he : setKeyOfEntry e = e := hall e (List.mem_cons_self e le)
      have hkey : e.image.series_description.getD e.image.modality =
          e.image.transforms_key := by
        have := congrArg (fun x => x.image.transforms_key) he
        simpa [setKeyOfEntry] using this
      have hkey' : e'.image.series_description.getD e'.image.modality =
          e'.image.transforms_key := by
        rw [hab.1, hab.2.1, hab.2.2]
        exact hkey
      have he' : setKeyOfEntry e' = e' := by
        unfold setKeyOfEntry
        rw [hkey']
      simp only [List.map_cons, he',
        ih (fun x hx => hall x (List.mem_cons_of_mem e hx))]

theorem keys_fixed_preserved {pd pd' : PatientDataModel}
    (hfix : set_transforms_keys pd = pd)
    (hmeta : List.Forall₂ MetaEq pd.data pd'.data) :
    set_transforms_keys pd' = pd' := by
  have hdata : pd.data.map setKeyOfEntry = pd.data := by
    have := congrArg PatientDataModel.data hfix
    simpa [set_transforms_keys] using this
  have hall : ∀ a ∈ pd.data, setKeyOfEntry a = a :=
    forall_of_map_eq_self pd.data setKeyOfEntry hdata
  have hmap : pd'.data.map setKeyOfEntry = pd'.data :=
    setKey_map_of_metaEq hmeta hall
  unfold set_transforms_keys
  rw [hmap]

/-- C6: applying the composite pipeline of two transforms equals applying the
first alone and then the second alone to the result — the orchestrator's
per-step processing composes sequentially, because a step never changes the
series identity or assigned key of any pair and the key assignment run at the
start of every call is idempotent. -/
theorem c6_sequential_composition (pd : PatientDataModel) (t1 t2 : Transform) :
    apply_transforms pd (TransformsArg.compose [t1, t2]) =
      (apply_transforms pd (TransformsArg.single t1)).bind
        (fun pd1 => apply_transforms pd1 (TransformsArg.single t2)) := by
  show applySeq (set_transforms_keys pd) [t1, t2] = _
  rcases h1 : (applyStep (set_transforms_keys pd) t1).2 with _ | pd1
  · show (match (applyStep (set_transforms_keys pd) t1).2 with
      | none => none
      | some pd' => applySeq pd' [t2]) = _
    rw [h1]
    show none = ((applyStep (set_transforms_keys pd) t1).2).bind _
    rw [h1]
    rfl
  · have hfix1 : set_transforms_keys pd1 = pd1 :=
      keys_fixed_preserved (set_transforms_keys_idem pd)
        (step_metaEq (set_transforms_keys pd) t1 pd1 h1)
    show (match (applyStep (set_transforms_keys pd) t1).2 with
      | none => none
      | some pd' => applySeq pd' [t2]) = _
    rw [h1]
    show applySeq pd1 [t2] = ((applyStep (set_transforms_keys pd) t1).2).bind _
    rw [h1]
    show (match (applyStep pd1 t2).2 with
      | none => none
      | some pd2 => applySeq pd2 []) = (applyStep (set_transforms_keys pd1) t2).2
    rw [hfix1]
    rcases h2 : (applyStep pd1 t2).2 with _ | pd2 <;> simp [h2, applySeq]

/-! Claim C2: the key set of a group's label maps after segmentation
application. -/

/-- A transform whose successful outputs keep the input's key sequence
(the behaviour of map transforms, which transform values in place). -/
def KeySeqPreserving (t : Transform) : Prop :=
  ∀ (mode : Mode) (d r : KC), (_apply_transform d t mode).2 = some (some r) →
    keysOf r = keysOf d

theorem omapM_forall₂_mem {α β : Type} (f : α → Option β) :
    ∀ (l : List α) (r : List β), omapM f l = some r →
      List.Forall₂ (fun a b => a ∈ l ∧ f a = some b) l r
  | [], r, h => by
      simp [omapM] at h
      subst h
      exact List.Forall₂.nil
  | a :: rest, r, h => by
      rcases ha : f a with _ | b
      · simp [omapM, ha] at h
      · rcases hr : omapM f rest with _ | r'
        · simp [omapM, ha, hr] at h
        · have hc : r = b :: r' := by
            simp [omapM, ha, hr] at h
            exact h.symm
          subst hc
          refine List.Forall₂.cons ⟨List.mem_cons_self a rest, ha⟩ ?_
          exact (omapM_forall₂_mem f rest r' hr).imp
            (fun x y hxy => ⟨List.mem_cons_of_mem a hxy.1, hxy.2⟩)

theorem segGroupStep_keys (images : KC) (t : Transform) (sd sd' : SegmentationData)
    (himg : NodupKeys images)
    (hnd : NodupKeys sd.simple_itk_label_maps)
    (hdisj : ∀ k ∈ keysOf sd.simple_itk_label_maps, containsKey images k = false)
    (hpres : KeySeqPreserving t)
    (h : (segGroupStep images t sd).2 = some sd') :
    keysOf sd'.simple_itk_label_maps = keysOf sd.simple_itk_label_maps := by
  have hover : overlayLabels (deepcopy images) sd.simple_itk_label_maps =
      images ++ sd.simple_itk_label_maps :=
    overlay_eq_append images _ (nodupKeys_append images _ himg hnd hdisj)
  simp only [segGroupStep] at h
  rcases hx : (_apply_transform (overlayLabels (deepcopy images) sd.simple_itk_label_maps)
      t Mode.SEGMENTATION).2 with _ | op
  · rw [hx] at h
    exact absurd h (by simp)
  · rcases op with _ | d
    · rw [hx] at h
      exact absurd h (by simp)
    · simp only [hx] at h
      have hkeys : keysOf d = keysOf images ++ keysOf sd.simple_itk_label_maps := by
        have hp := hpres Mode.SEGMENTATION _ d hx
        rw [hover, keysOf_append] at hp
        exact hp
      rcases popAll_of_keys_split (keysOf images) d
          (keysOf sd.simple_itk_label_maps) hkeys with ⟨d', hpop, hk⟩
      rw [hpop] at h
      have hsd' : sd' = SegmentationData.mk d' := by simpa using h.symm
      subst hsd'
      exact hk

/-- C2 as amended: provided the transform's successful outputs keep the
input's key sequence and every group's organ keys are duplicate-free and
disjoint from the image keys, a completed segmentation application leaves
every group with exactly its original organ keys, and no image key of the
shared image collection occurs in any group's resulting label maps. -/
theorem c2_amended_exact_organ_keys (pd : PatientDataModel) (t : Transform)
    (pd' : PatientDataModel)
    (hgrp : ∀ e ∈ pd.data, ∀ sd ∈ e.segmentations,
      NodupKeys sd.simple_itk_label_maps ∧
      ∀ k ∈ keysOf sd.simple_itk_label_maps, containsKey (imagesDictOf pd) k = false)
    (hpres : KeySeqPreserving t)
    (h : (_apply_transform_on_segmentations pd t).2 = some pd') :
    List.Forall₂ (fun e e' =>
      List.Forall₂ (fun sd sd' =>
        keysOf sd'.simple_itk_label_maps = keysOf sd.simple_itk_label_maps ∧
        ∀ k ∈ keysOf (imagesDictOf pd),
          containsKey sd'.simple_itk_label_maps k = false)
        e.segmentations e'.segmentations)
      pd.data pd'.data := by
  have himg : NodupKeys (imagesDictOf pd) := nodupKeys_dictOfPairs _
  rw [segs_snd, entriesSegStep_snd] at h
  rcases ho : omapM (fun e => (entrySegStep (imagesDictOf pd) t e).2) pd.data with _ | l
  · rw [ho] at h
    exact absurd h (by simp)
  · rw [ho] at h
    have hpd' : pd' = PatientDataModel.mk l := by simpa using h.symm
    subst hpd'
    refine (omapM_forall₂_mem _ pd.data l ho).imp ?_
    intro e e' hee
    rcases hee with ⟨he, hsome⟩
    rcases entrySegStep_some (imagesDictOf pd) t e e' hsome with ⟨sds, hg, he'⟩
    subst he'
    rw [segGroupsStep_snd] at hg
    refine (omapM_forall₂_mem _ e.segmentations sds hg).imp ?_
    intro sd sd' hsd
    rcases hsd with ⟨hsd, hstep⟩
    have hkeq := segGroupStep_keys (imagesDictOf pd) t sd sd' himg
      (hgrp e he sd hsd).1 (hgrp e he sd hsd).2 hpres hstep
    refine ⟨hkeq, ?_⟩
    intro k hk
    cases hcc : containsKey sd'.simple_itk_label_maps k with
    | false => rfl
    | true =>
        have hmem : k ∈ keysOf sd'.simple_itk_label_maps :=
          (containsKey_iff_mem _ _).mp hcc
        rw [hkeq] at hmem
        have hfalse := (hgrp e he sd hsd).2 k hmem
        rw [(containsKey_iff_mem _ _).mpr hk] at hfalse
        exact Bool.noConfusion hfalse

/-- Segmentation group whose organ name collides with the image key CT. -/
def sdCollide : SegmentationData := SegmentationData.mk [("CT", imgLiver)]

/-- Record whose single group names its organ like the image key. -/
def pdCollide : PatientDataModel :=
  PatientDataModel.mk
    [ImageAndSegmentationData.mk (ImageData.mk (some "CT") "CT" "CT" imgCT) [sdCollide]]

/-- C2 counterexample: with the identity physical-space transform and an
organ named like the image key "CT", the segmentation application completes
but the group's resulting label maps are empty — the original organ key "CT"
is not present, refuting the claim that the result contains exactly the
original organ keys for every record and transform step. -/
theorem c2_counterexample :
    (_apply_transform_on_segmentations pdCollide (Transform.d2h d2hId)).2 =
      some (PatientDataModel.mk
        [ImageAndSegmentationData.mk (ImageData.mk (some "CT") "CT" "CT" imgCT)
          [SegmentationData.mk []]]) ∧
    containsKey sdCollide.simple_itk_label_maps "CT" = true ∧
    containsKey (SegmentationData.mk ([] : KC)).simple_itk_label_maps "CT" = false :=
  ⟨by decide, by decide, by decide⟩

theorem d2hId_keySeqPreserving : KeySeqPreserving (Transform.d2h d2hId) := by
  intro mode d r h
  have hx : (_apply_transform d (Transform.d2h d2hId) mode).2 = some (some d) := rfl
  rw [hx] at h
  have : r = d := by simpa using h.symm
  rw [this]

theorem c2_witness :
    ((∀ e ∈ pdCT.data, ∀ sd ∈ e.segmentations,
        NodupKeys sd.simple_itk_label_maps ∧
        ∀ k ∈ keysOf sd.simple_itk_label_maps,
          containsKey (imagesDictOf pdCT) k = false) ∧
      (_apply_transform_on_segmentations pdCT (Transform.d2h d2hId)).2 = some pdCT) ∧
    List.Forall₂ (fun e e' =>
      List.Forall₂ (fun sd sd' =>
        keysOf sd'.simple_itk_label_maps = keysOf sd.simple_itk_label_maps ∧
        ∀ k ∈ keysOf (imagesDictOf pdCT),
          containsKey sd'.simple_itk_label_maps k = false)
        e.segmentations e'.segmentations)
      pdCT.data pdCT.data :=
  ⟨⟨by decide, by decide⟩,
    c2_amended_exact_organ_keys pdCT (Transform.d2h d2hId) pdCT
      (by decide) d2hId_keySeqPreserving (by decide)⟩

/-! Claim C5: the identity transform.  On the physical-space path an
identity transform leaves the record untouched; on the array-space path the
prepended EnsureChannelFirstD step rewrites entries at the transform's keys
of interest, so byte-identity only holds away from those keys. -/

theorem keysOf_infoOf (l : KC) : keysOf (infoOf l) = keysOf l := by
  simp only [infoOf, keysOf, List.map_map]
  rfl

theorem monai_id_on_nodup (l : KC) (hnd : NodupKeys l) :
    _apply_monai_transforms l (MonaiMapTransform.mk [] (fun d => some d)) = some l := by
  show omapM (fun kv => (lookupKV (infoOf l) kv.1).map
      (fun i => (kv.1, restoreImage i kv.2))) (EnsureChannelFirstD [] (arraysOf l)) = some l
  have hecf : EnsureChannelFirstD [] (arraysOf l) = arraysOf l := by
    unfold EnsureChannelFirstD
    apply map_eq_self_of_forall
    intro kv _
    rfl
  rw [hecf]
  refine omapM_map_eq_some_self _ _ l ?_
  intro kv hkv
  have hndinfo : NodupKeys (infoOf l) := by
    unfold NodupKeys
    have hx := keysOf_infoOf l
    rw [hx]
    exact hnd
  have hmem : (kv.1, SitkImageInfo.mk kv.2.spacing kv.2.origin kv.2.direction) ∈ infoOf l :=
    List.mem_map.mpr ⟨kv, hkv, rfl⟩
  have hinfo := lookupKV_of_mem_nodup hndinfo hmem
  show (lookupKV (infoOf l) kv.1).map
      (fun i => (kv.1, restoreImage i (GetArrayFromImage kv.2))) = some kv
  rw [hinfo]
  rfl

/-- A transform value that behaves as the identity on every keyed collection
with duplicate-free keys. -/
def IdOnNodup (T : Transform) : Prop :=
  ∀ (mode : Mode) (d : KC), NodupKeys d → (_apply_transform d T mode).2 = some (some d)

theorem d2hId_idOnNodup (m0 : Mode) :
    IdOnNodup (Transform.d2h (Dicom2hdfTransform.mk m0 (fun _ d => some d))) :=
  fun _ _ _ => rfl

theorem monaiId_idOnNodup :
    IdOnNodup (Transform.monai (MonaiMapTransform.mk [] (fun d => some d))) := by
  intro mode d hnd
  show (_apply_monai_transforms d (MonaiMapTransform.mk [] (fun d => some d))).map some =
    some (some d)
  rw [monai_id_on_nodup d hnd]
  rfl

theorem lookup_images_self (pd : PatientDataModel)
    (hkeys : (pd.data.map (fun e => e.image.transforms_key)).Nodup)
    (e : ImageAndSegmentationData) (he : e ∈ pd.data) :
    lookupKV (imagesDictOf pd) e.image.transforms_key = some e.image.simple_itk_image := by
  have hnd : NodupKeys (pd.data.map
      (fun e => (e.image.transforms_key, e.image.simple_itk_image))) := by
    unfold NodupKeys
    have hk : keysOf (pd.data.map
        (fun e => (e.image.transforms_key, e.image.simple_itk_image))) =
        pd.data.map (fun e => e.image.transforms_key) := by
      simp only [keysOf, List.map_map]
      rfl
    rw [hk]
    exact hkeys
  unfold imagesDictOf
  rw [dictOfPairs_eq_self _ hnd]
  exact lookupKV_of_mem_nodup hnd (List.mem_map.mpr ⟨e, he, rfl⟩)

theorem segs_id (pd : PatientDataModel) (T : Transform)
    (hgrp : ∀ e ∈ pd.data, ∀ sd ∈ e.segmentations,
      NodupKeys sd.simple_itk_label_maps ∧
      ∀ k ∈ keysOf sd.simple_itk_label_maps, containsKey (imagesDictOf pd) k = false)
    (hid : IdOnNodup T) :
    (_apply_transform_on_segmentations pd T).2 = some pd := by
  have himg : NodupKeys (imagesDictOf pd) := nodupKeys_dictOfPairs _
  rw [segs_snd, entriesSegStep_snd]
  have hmain : omapM (fun e => (entrySegStep (imagesDictOf pd) T e).2) pd.data =
      some pd.data := by
    apply omapM_of_forall_id
    intro e he
    have hg : (segGroupsStep (imagesDictOf pd) T e.segmentations).2 =
        some e.segmentations := by
      rw [segGroupsStep_snd]
      apply omapM_of_forall_id
      intro sd hsd
      have hnds := (hgrp e he sd hsd).1
      have hdisj := (hgrp e he sd hsd).2
      have htempnd : NodupKeys (imagesDictOf pd ++ sd.simple_itk_label_maps) :=
        nodupKeys_append _ _ himg hnds hdisj
      have hover : overlayLabels (deepcopy (imagesDictOf pd)) sd.simple_itk_label_maps =
          imagesDictOf pd ++ sd.simple_itk_label_maps :=
        overlay_eq_append _ _ htempnd
      show (segGroupStep (imagesDictOf pd) T sd).2 = some sd
      simp only [segGroupStep]
      rw [hover]
      simp only [hid Mode.SEGMENTATION _ htempnd]
      rw [popAll_append]
      rfl
    show ((segGroupsStep (imagesDictOf pd) T e.segmentations).2).map
        (fun sds => { e with segmentations := sds }) = some e
    rw [hg]
    rfl
  rw [hmain]
  rfl

theorem images_id (pd : PatientDataModel) (T : Transform)
    (hkeys : (pd.data.map (fun e => e.image.transforms_key)).Nodup)
    (hid : IdOnNodup T) :
    (_apply_transform_on_images pd T).2 = some pd := by
  have himg : NodupKeys (imagesDictOf pd) := nodupKeys_dictOfPairs _
  simp only [_apply_transform_on_images, hid Mode.IMAGE _ himg]
  have hmain : omapM (writeBackImage (imagesDictOf pd)) pd.data = some pd.data := by
    apply omapM_of_forall_id
    intro e he
    unfold writeBackImage
    rw [lookup_images_self pd hkeys e he]
    rfl
  rw [hmain]
  rfl

/-- C5 as amended: on a record with assigned, pairwise-distinct image keys
and duplicate-free organ keys disjoint from the image keys, an identity
physical-space transform leaves the whole record byte-identical, and so does
an identity array-space transform with no keys of interest; an identity
array-space transform with keys of interest is excluded, because the
prepended channel-normalizing step inserts a leading channel axis at those
keys (see the counterexample). -/
theorem c5_amended_identity_transform (pd : PatientDataModel) (m0 : Mode)
    (hfix : set_transforms_keys pd = pd)
    (hkeys : (pd.data.map (fun e => e.image.transforms_key)).Nodup)
    (hgrp : ∀ e ∈ pd.data, ∀ sd ∈ e.segmentations,
      NodupKeys sd.simple_itk_label_maps ∧
      ∀ k ∈ keysOf sd.simple_itk_label_maps, containsKey (imagesDictOf pd) k = false) :
    apply_transforms pd (TransformsArg.single
        (Transform.d2h (Dicom2hdfTransform.mk m0 (fun _ d => some d)))) = some pd ∧
    apply_transforms pd (TransformsArg.single
        (Transform.monai (MonaiMapTransform.mk [] (fun d => some d)))) = some pd := by
  have hstep : ∀ T : Transform, IdOnNodup T →
      apply_transforms pd (TransformsArg.single T) = some pd := by
    intro T hid
    show (applyStep (set_transforms_keys pd) T).2 = some pd
    rw [hfix, applyStep_snd]
    unfold stepSegsThenImages
    rw [segs_id pd T hgrp hid]
    exact images_id pd T hkeys hid
  exact ⟨hstep _ (d2hId_idOnNodup m0), hstep _ monaiId_idOnNodup⟩

/-- C5 counterexample: an identity array-space transform whose keys of
interest contain the image key leaves the voxel values untouched but inserts
a leading channel axis, so the resulting image is not byte-identical to the
original — refuting byte-identity for the array-space execution path. -/
theorem c5_counterexample :
    apply_transforms pdCT (TransformsArg.single (Transform.monai monaiIdCT)) =
      some (PatientDataModel.mk
        [ImageAndSegmentationData.mk (ImageData.mk (some "CT") "CT" "CT" imgCTChanneled)
          [SegmentationData.mk [("liver", imgLiver)]]]) ∧
    imgCTChanneled ≠ imgCT :=
  ⟨by decide, by decide⟩

theorem c5_witness :
    (set_transforms_keys pdCT = pdCT ∧
      (pdCT.data.map (fun e => e.image.transforms_key)).Nodup ∧
      (∀ e ∈ pdCT.data, ∀ sd ∈ e.segmentations,
        NodupKeys sd.simple_itk_label_maps ∧
        ∀ k ∈ keysOf sd.simple_itk_label_maps,
          containsKey (imagesDictOf pdCT) k = false)) ∧
    (apply_transforms pdCT (TransformsArg.single
        (Transform.d2h (Dicom2hdfTransform.mk Mode.NONE (fun _ d => some d)))) =
        some pdCT ∧
      apply_transforms pdCT (TransformsArg.single
        (Transform.monai (MonaiMapTransform.mk [] (fun d => some d)))) = some pdCT) :=
  ⟨⟨by decide, by decide, by decide⟩,
    c5_amended_identity_transform pdCT Mode.NONE (by decide) (by decide) (by decide)⟩

end Dicom2hdf
